import Mathlib

/-!
The inotify wrapper and the installed-set tracker of miXpkg.

A shallow embedding of `src/inotify.h`, `src/inotify.cc` and of the tracker
loop of `src/main.cc`.

Conventions of the embedding.

* `std::string` is a list of characters (`Str`).
* Machine integers are `Nat` (unsigned, reduced modulo `2 ^ 32` where the
  source computes in `uint32_t`) and `Int` (`int`, `int32_t`).
* The target is taken to be LP64 Linux: `size_t` has 64 bits, the fields of
  `struct inotify_event` are little-endian and `sizeof(struct inotify_event)`
  is 16.
* A C++ exception and an operation whose behaviour the language leaves
  undefined both end a run with a `Fault` that names it. A buffer is the list
  of the bytes of its allocation; a store or a load outside it is such an
  operation.
* System calls are inputs: the file system and the kernel are a record of
  functions (`FileSystem`), the results of `select` and `ioctl` are arguments.
-/

namespace MiXpkg

/-- The type `std::string`. -/
abbrev Str := List Char

/-- Ways a run ends other than by returning. The first two are C++ exceptions
thrown by the source; the others are operations the source performs whose
behaviour is undefined. -/
inductive Fault where
  /-- Exception `std::system_error(errno, ...)`. -/
  | system_error
  /-- Exception `std::invalid_argument`. -/
  | invalid_argument
  /-- Undefined: `std::string::back()` on an empty string. -/
  | back_of_empty_string
  /-- Undefined: `std::vector::back()` on an empty vector. -/
  | back_of_empty_vector
  /-- Undefined: `std::vector::erase(end())`. -/
  | erase_of_end_iterator
  /-- Undefined: a store through a pointer that points outside the allocated
  buffer. -/
  | store_out_of_bounds
  /-- Undefined: a load through a pointer that points outside the allocated
  buffer. -/
  | load_out_of_bounds
  deriving DecidableEq

/-- The class `InotifyEvent` of `inotify.h`. -/
structure InotifyEvent where
  wd : Int
  mask : Nat
  cookie : Nat
  file : Str
  dir : Str
  deriving DecidableEq

/-- Constant `IN_MOVED_FROM` of `<sys/inotify.h>`. -/
def IN_MOVED_FROM : Nat := 0x00000040

/-- Constant `IN_MOVED_TO` of `<sys/inotify.h>`. -/
def IN_MOVED_TO : Nat := 0x00000080

/-- Constant `IN_CREATE` of `<sys/inotify.h>`. -/
def IN_CREATE : Nat := 0x00000100

/-! ## `CombineToFullPath` (two textually separate copies) -/

/-- The function `CombineToFullPath` of `inotify.cc`. `path.back()` is
evaluated only when `file` is not empty; on an empty `path` it is undefined. -/
def CombineToFullPath (path file : Str) : Except Fault Str :=
  if file.length = 0 then .ok path
  else
    match path.getLast? with
    | none => .error Fault.back_of_empty_string
    | some path_back =>
      let file_front := file.headD '/'
      if '/' ≠ path_back ∧ '/' ≠ file_front then
        .ok (path ++ ['/'] ++ file)
      else if '/' = path_back ∧ '/' = file_front then
        .ok (path ++ file.drop 1)
      else
        .ok (path ++ file)

namespace Main

/-- The function `CombineToFullPath` of `main.cc`. -/
def CombineToFullPath (path file : Str) : Except Fault Str :=
  if file.length = 0 then .ok path
  else
    match path.getLast? with
    | none => .error Fault.back_of_empty_string
    | some path_back =>
      let file_front := file.headD '/'
      if '/' ≠ path_back ∧ '/' ≠ file_front then
        .ok (path ++ ['/'] ++ file)
      else if '/' = path_back ∧ '/' = file_front then
        .ok (path ++ file.drop 1)
      else
        .ok (path ++ file)

end Main

/-- A path with one trailing separator removed, if it has one. -/
def dropTrailingSlash (p : Str) : Str :=
  if p.getLast? = some '/' then p.dropLast else p

/-- A child name with one leading separator removed, if it has one. -/
def dropLeadingSlash (c : Str) : Str :=
  if c.head? = some '/' then c.tail else c

/-! ## The installed-set tracker of `WatchInotifyEvents` -/

/-- The predicate of the `find_if` call: `event.file() == e.file() &&
event.dir() == e.dir()`. -/
def sameFileDir (event e : InotifyEvent) : Bool :=
  event.file == e.file && event.dir == e.dir

/-- The body of the `for(auto &event : events)` loop of `WatchInotifyEvents`:
one event folded into `installed`. `find_if` yields the first match or
`installed.end()`; `erase` of the end iterator is undefined. -/
def trackerStep (installed : List InotifyEvent) (event : InotifyEvent) :
    Except Fault (List InotifyEvent) :=
  if IN_MOVED_FROM &&& event.mask ≠ 0 then
    match installed.findIdx? (sameFileDir event) with
    | some deleted => .ok (installed.eraseIdx deleted)
    | none => .error Fault.erase_of_end_iterator
  else if IN_CREATE &&& event.mask ≠ 0 then
    .ok (installed ++ [event])
  else
    .ok installed

/-- The `for` loop of `WatchInotifyEvents` over one batch of events. -/
def trackerFold (installed : List InotifyEvent) :
    List InotifyEvent → Except Fault (List InotifyEvent)
  | [] => .ok installed
  | event :: rest =>
    match trackerStep installed event with
    | .ok installed1 => trackerFold installed1 rest
    | .error f => .error f

/-! ## The watch registry and the kernel interface -/

/-- The member `wd_dir_map`, a `std::map<int, std::string>`: the value stored
under each key, `none` for a key that is absent. -/
abbrev WdDirMap := Int → Option Str

/-- The empty map. -/
def WdDirMap.empty : WdDirMap := fun _ => none

/-- The expression `wd_dir_map[key]` read as a value: `std::map::operator[]`
returns the stored string, and when the key is absent it first inserts the key
with an empty string. The result is the value and the map afterwards. -/
def WdDirMap.index (m : WdDirMap) (key : Int) : Str × WdDirMap :=
  match m key with
  | some v => (v, m)
  | none => ([], fun k => if k = key then some [] else m k)

/-- The statement `wd_dir_map[key] = value`. -/
def WdDirMap.assign (m : WdDirMap) (key : Int) (value : Str) : WdDirMap :=
  fun k => if k = key then some value else m k

/-- The call `wd_dir_map.erase(key)`. -/
def WdDirMap.erase (m : WdDirMap) (key : Int) : WdDirMap :=
  fun k => if k = key then none else m k

/-- File types told apart by `S_ISDIR` and `S_ISLNK` on the `st_mode` that
`lstat` fills in. -/
inductive FileKind where
  | regular
  | directory
  | symlink
  deriving DecidableEq

/-- The file system and the kernel as seen through the calls the source makes.
`lstat` gives the type of the file a path names without following a final
symbolic link (`none`: the call fails); `opendir` gives the names that
successive `readdir` calls return, `.` and `..` included (`none`: `opendir`
returns null); `inotify_add_watch` gives the watch descriptor (`none`: the call
returns -1). -/
structure FileSystem where
  lstat : Str → Option FileKind
  opendir : Str → Option (List Str)
  inotify_add_watch : Str → Nat → Option Int

/-- The object state of class `Inotify`: the member `wd_dir_map`, and as ghost
state the watches installed so far, each the pathname passed to a successful
`inotify_add_watch` with the descriptor returned, in call order. -/
structure Inotify where
  wd_dir_map : WdDirMap
  watches : List (Str × Int)

/-- A fresh object: no watch, empty map. -/
def Inotify.init : Inotify := ⟨WdDirMap.empty, []⟩

/-- The function `IsDirectory`: `lstat` succeeds and the mode is a directory
and not a symbolic link. -/
def IsDirectory (fs : FileSystem) (dir : Str) : Bool :=
  match fs.lstat dir with
  | some k => decide (k = FileKind.directory) && !decide (k = FileKind.symlink)
  | none => false

/-- The function `OneOrTwoDotsDir`, applied to `entry->d_name`. -/
def OneOrTwoDotsDir (d_name : Str) : Bool :=
  decide (['.'] = d_name) || decide (['.', '.'] = d_name)

/-- The method `Inotify::WatchFile`: throws when `inotify_add_watch` returns -1. -/
def WatchFile (fs : FileSystem) (self : Inotify) (pathname : Str) (events : Nat) :
    Except Fault (Int × Inotify) :=
  match fs.inotify_add_watch pathname events with
  | none => .error Fault.system_error
  | some fd => .ok (fd, { self with watches := self.watches ++ [(pathname, fd)] })

/-- Value `std::numeric_limits<int32_t>::max()`. -/
def INT32_MAX : Nat := 2147483647

/-- The body of `Inotify::WatchRecursively` from `int fd = ...` on, for a
`max_depth` that is not negative (every recursive call passes `max_depth - 1`
with `max_depth > 0`). The `while` loop over `readdir` is the fold
over the names of the directory. -/
def WatchRecursivelyFrom (fs : FileSystem) (events : Nat) :
    Nat → Str → Inotify → Except Fault Inotify
  | 0, path, self =>
    match WatchFile fs self path events with
    | .error f => .error f
    | .ok (_, self1) => .ok self1
  | max_depth + 1, path, self =>
    match WatchFile fs self path events with
    | .error f => .error f
    | .ok (fd, self1) =>
      match fs.opendir path with
      | none => .ok self1
      | some entries =>
        entries.foldlM
          (fun (self3 : Inotify) (d_name : Str) =>
            match CombineToFullPath path d_name with
            | .error f => .error f
            | .ok entry_path =>
              if IsDirectory fs entry_path then
                if OneOrTwoDotsDir d_name then .ok self3
                else WatchRecursivelyFrom fs events max_depth entry_path self3
              else .ok self3)
          { self1 with wd_dir_map := self1.wd_dir_map.assign fd path }

/-- The method `Inotify::WatchRecursively`. A null `path` is `none`. -/
def WatchRecursively (fs : FileSystem) (self : Inotify) (path : Option Str)
    (events : Nat) (max_depth : Int) : Except Fault Inotify :=
  match path with
  | none => .error Fault.invalid_argument
  | some p =>
    let max_depth1 : Nat := if max_depth < 0 then INT32_MAX else max_depth.toNat
    WatchRecursivelyFrom fs events max_depth1 p self

/-- The method `Inotify::RemoveWatch`; `rm` is the result of
`inotify_rm_watch`. -/
def RemoveWatch (self : Inotify) (rm : Int) (wd : Int) : Except Fault (Bool × Inotify) :=
  if rm = -1 then .error Fault.system_error
  else .ok (decide (rm = 0), { self with wd_dir_map := self.wd_dir_map.erase wd })

/-! ## The event stream decoder -/

/-- The byte stored at offset `i` of a memory region. The decoder calls it
only for offsets inside the region (it checks the header against the region
first, and the name ends at the stored terminator); outside it the function
gives 0. -/
def byteAt (mem : List Nat) (i : Nat) : Nat := mem.getD i 0 % 256

/-- A little-endian `uint32_t` field at offset `off`. -/
def readU32 (mem : List Nat) (off : Nat) : Nat :=
  byteAt mem off + 256 * byteAt mem (off + 1) + 65536 * byteAt mem (off + 2)
    + 16777216 * byteAt mem (off + 3)

/-- The value of a 32-bit pattern read as `int` (two's complement). -/
def toInt32 (u : Nat) : Int :=
  if u % 4294967296 < 2147483648 then (u % 4294967296 : Nat)
  else ((u % 4294967296 : Nat) : Int) - 4294967296

/-- Value `sizeof(struct inotify_event)`: four 32-bit fields. -/
def HEADER_SIZE : Nat := 16

/-- The C string starting at the head of a memory region, as
`std::string(const char*)` reads it: the bytes before the first NUL. -/
def cString (mem : List Nat) : Str :=
  (mem.takeWhile (fun b => b % 256 ≠ 0)).map (fun b => Char.ofNat (b % 256))

/-- The local state of `ParseInotifyEvents` at the head of the `do` loop.
`event` is the memory from the pointer `event` to the end of the allocated
buffer, so advancing the pointer by `n` bytes drops `n` bytes. -/
structure ParseState where
  unread_bytes : Nat
  event : List Nat
  events : List InotifyEvent
  wd_dir_map : WdDirMap

/-- One pass through the body of the `do ... while(unread_bytes > 0)` loop.
The boolean tells whether the loop goes round again (no `break`, and the
`while` condition holds). The store `event->name[name_length] = 0` is at offset
`16 + name_length` from `event`: one byte past the name field. When that
offset lies outside the allocated buffer the store is undefined, as is the
load of a header that the allocated buffer does not hold (possible only when
`size` exceeds the allocation). -/
def parseIteration (s : ParseState) : Except Fault (ParseState × Bool) :=
  if s.unread_bytes < HEADER_SIZE then .ok (s, false)
  else if s.event.length < HEADER_SIZE then .error Fault.load_out_of_bounds
  else
    let name_length := readU32 s.event 12
    let event_size := (HEADER_SIZE + name_length) % 4294967296
    if s.unread_bytes < event_size then .ok (s, false)
    else if name_length > 0 ∧ s.event.length ≤ HEADER_SIZE + name_length then
      .error Fault.store_out_of_bounds
    else
      let mem1 := if name_length > 0 then s.event.set (HEADER_SIZE + name_length) 0
                  else s.event
      let name : Str := if name_length > 0 then cString (mem1.drop HEADER_SIZE) else []
      let wd := toInt32 (readU32 mem1 0)
      let mask := readU32 mem1 4
      let cookie := readU32 mem1 8
      if wd = 0 then
        match s.events.getLast? with
        | none => .error Fault.back_of_empty_vector
        | some back =>
          let ev : InotifyEvent := ⟨back.wd, mask, cookie, back.file, back.dir⟩
          let unread1 := s.unread_bytes - event_size
          .ok (⟨unread1, mem1.drop event_size, s.events ++ [ev], s.wd_dir_map⟩,
               decide (unread1 > 0))
      else
        let (dir, map1) := s.wd_dir_map.index wd
        let ev : InotifyEvent := ⟨wd, mask, cookie, name, dir⟩
        let unread1 := s.unread_bytes - event_size
        .ok (⟨unread1, mem1.drop event_size, s.events ++ [ev], map1⟩,
             decide (unread1 > 0))

/-- The `do ... while` loop, run for at most `fuel` passes; `none` when the
loop has not ended by then. -/
def parseLoop : Nat → ParseState → Option (Except Fault ParseState)
  | 0, _ => none
  | fuel + 1, s =>
    match parseIteration s with
    | .error f => some (.error f)
    | .ok (s1, false) => some (.ok s1)
    | .ok (s1, true) => parseLoop fuel s1

/-- The conversion of an `int` to `size_t`. -/
def toSizeT (n : Int) : Nat :=
  if n < 0 then (n + 18446744073709551616).toNat else n.toNat

/-- The method `Inotify::ParseInotifyEvents(buf, size, events)` on an object
whose map is `wd_dir_map`. The list `buf` is the allocated memory that the
pointer `buf` points to, to its end; `ReadEvents` allocates exactly `size`
bytes. The result is the final state of the locals; its fields `events` and
`wd_dir_map` are the output vector and the map afterwards. -/
def ParseInotifyEvents (fuel : Nat) (wd_dir_map : WdDirMap) (buf : List Nat) (size : Int)
    (events : List InotifyEvent) : Option (Except Fault ParseState) :=
  parseLoop fuel ⟨toSizeT size, buf, events, wd_dir_map⟩

/-- The method `Inotify::ReadEvents`. `nready` is the result of `select`,
`ioctl_result` that of `ioctl(fd_, FIONREAD, &bytes_to_read)`, and
`read_buffer` the contents of the buffer of `bytes_to_read` bytes (the whole
allocation `new char[bytes_to_read]`) after the `read` call. The result is the
returned vector and the map afterwards. -/
def ReadEvents (fuel : Nat) (wd_dir_map : WdDirMap) (nready : Int) (ioctl_result : Int)
    (bytes_to_read : Int) (read_buffer : List Nat) :
    Option (Except Fault (List InotifyEvent × WdDirMap)) :=
  if nready > 0 then
    if ioctl_result ≠ 0 then some (.error Fault.system_error)
    else
      match ParseInotifyEvents fuel wd_dir_map read_buffer bytes_to_read [] with
      | none => none
      | some (.error f) => some (.error f)
      | some (.ok s) => some (.ok (s.events, s.wd_dir_map))
  else some (.ok ([], wd_dir_map))

/-! ## Raw records, as the kernel writes them -/

/-- A raw record: the header fields and the `len` bytes of the name field
(the name with its NUL padding). -/
structure RawRecord where
  wd : Int
  mask : Nat
  cookie : Nat
  name : List Nat

/-- The four bytes of a 32-bit value, least significant first. -/
def le32 (v : Nat) : List Nat :=
  [v % 256, v / 256 % 256, v / 65536 % 256, v / 16777216 % 256]

/-- The sixteen header bytes of a record: `wd`, `mask`, `cookie`, `len`. -/
def header (w mk ck n : Nat) : List Nat := le32 w ++ le32 mk ++ le32 ck ++ le32 n

/-- The 32-bit pattern of an `int`. -/
def rawWord (wd : Int) : Nat := (wd % 4294967296).toNat

/-- The bytes of a raw record: the 16-byte header, then the `len` bytes of the
name field. -/
def RawRecord.encode (r : RawRecord) : List Nat :=
  header (rawWord r.wd) r.mask r.cookie r.name.length ++ r.name

/-- A buffer of back-to-back records. -/
def encodeAll : List RawRecord → List Nat
  | [] => []
  | r :: rs => r.encode ++ encodeAll rs

/-- A record is well formed when each header field fits its 32 bits, the
record size `16 + len` fits the 32 bits in which it is computed, and each byte
of the name field is a byte. -/
def RawRecord.WellFormed (r : RawRecord) : Prop :=
  -2147483648 ≤ r.wd ∧ r.wd < 2147483648 ∧ r.mask < 4294967296 ∧ r.cookie < 4294967296
    ∧ HEADER_SIZE + r.name.length < 4294967296 ∧ ∀ b ∈ r.name, b < 256

instance (r : RawRecord) : Decidable r.WellFormed := by
  unfold RawRecord.WellFormed; infer_instance

/-- A truncated tail: fewer bytes than a header, or a header whose record
needs more bytes than are left. The record size `16 + len` of that header
fits 32 bits; a `len` that makes the size wrap is an invalid length, not a
truncation. -/
def TruncatedTail (tail : List Nat) : Prop :=
  tail.length < HEADER_SIZE ∨
    (HEADER_SIZE + readU32 tail 12 < 4294967296 ∧ tail.length < HEADER_SIZE + readU32 tail 12)

instance (tail : List Nat) : Decidable (TruncatedTail tail) := by
  unfold TruncatedTail; infer_instance

/-- A memory region whose first byte has been overwritten with 0 when `c`
holds: the effect on the bytes after a record of the terminator stored while
that record was decoded. -/
def clobber (c : Bool) (mem : List Nat) : List Nat := if c then mem.set 0 0 else mem

/-- The run of the decoder over a buffer of back-to-back records, told on the
records rather than on the bytes. `more` tells whether the allocated buffer
holds bytes after the last record; without them the terminator store of a last
record that has a name field falls outside the buffer. `c` tells whether the
record before the first one had a name field (`len > 0`), in which case the
low byte of `wd` has been overwritten with 0 by the time the header is read. -/
def decodeRecords (more : Bool) : Bool → WdDirMap → List InotifyEvent → List RawRecord →
    Except Fault (List InotifyEvent × WdDirMap)
  | _, m, es, [] => .ok (es, m)
  | c, m, es, r :: rs =>
    if r.name.length > 0 ∧ rs.isEmpty = true ∧ more = false then
      .error Fault.store_out_of_bounds
    else
      let w := if c then rawWord r.wd / 256 * 256 else rawWord r.wd
      if toInt32 w = 0 then
        match es.getLast? with
        | none => .error Fault.back_of_empty_vector
        | some back =>
          decodeRecords more (decide (r.name.length > 0)) m
            (es ++ [⟨back.wd, r.mask, r.cookie, back.file, back.dir⟩]) rs
      else
        decodeRecords more (decide (r.name.length > 0)) (m.index (toInt32 w)).2
          (es ++ [⟨toInt32 w, r.mask, r.cookie, if r.name.length > 0 then cString r.name else [],
                   (m.index (toInt32 w)).1⟩]) rs

/-- The output of a decoder run: the vector `events` and the map afterwards. -/
def output (r : Option (Except Fault ParseState)) :
    Option (Except Fault (List InotifyEvent × WdDirMap)) :=
  r.map (Except.map (fun s => (s.events, s.wd_dir_map)))

/-! ## The walk of `WatchRecursively`, told on the tree -/

/-- The pathnames of the watches installed so far, in call order. -/
def watchedPaths (self : Inotify) : List Str := self.watches.map Prod.fst

/-- Relation `Below fs p k q`: the path `q` names a real directory lying `k` levels
below `p`, reached from `p` through `k` directory entries, none of them `.` or
`..`, each of which `lstat` reports as a directory (so not a symbolic link). For
`k = 0` it is `p` itself. -/
inductive Below (fs : FileSystem) : Str → Nat → Str → Prop where
  | here (p : Str) : Below fs p 0 p
  | step {p c q : Str} {k : Nat} {entries : List Str} {d_name : Str} :
      fs.opendir p = some entries → d_name ∈ entries →
      d_name ≠ ['.'] → d_name ≠ ['.', '.'] →
      CombineToFullPath p d_name = .ok c → fs.lstat c = some FileKind.directory →
      Below fs c k q → Below fs p (k + 1) q

/-- The pathnames on which a walk from `path` with `max_depth` levels left
installs a watch, in order, when every install succeeds. -/
def walkPaths (fs : FileSystem) : Nat → Str → List Str
  | 0, path => [path]
  | max_depth + 1, path =>
    path ::
      match fs.opendir path with
      | none => []
      | some entries =>
        entries.flatMap (fun d_name =>
          match CombineToFullPath path d_name with
          | .error _ => []
          | .ok entry_path =>
            if IsDirectory fs entry_path && !OneOrTwoDotsDir d_name then
              walkPaths fs max_depth entry_path
            else [])

/-- The tree `/r/{a, b/{c}}`: `/r` and `/r/b` are directories, `/r/a` and
`/r/b/c` plain files. Every directory lists `.` and `..` first. -/
def exampleFs : FileSystem where
  lstat p :=
    if p ∈ ["/r".toList, "/r/.".toList, "/r/..".toList, "/r/b".toList, "/r/b/.".toList,
        "/r/b/..".toList] then some FileKind.directory
    else if p ∈ ["/r/a".toList, "/r/b/c".toList] then some FileKind.regular
    else none
  opendir p :=
    if p ∈ ["/r".toList, "/r/.".toList, "/r/b/..".toList] then
      some [".".toList, "..".toList, "a".toList, "b".toList]
    else if p ∈ ["/r/b".toList, "/r/b/.".toList] then
      some [".".toList, "..".toList, "c".toList]
    else if p = "/r/..".toList then some [".".toList, "..".toList, "r".toList]
    else none
  inotify_add_watch p _ :=
    if p = "/r".toList then some 1 else if p = "/r/b".toList then some 2 else some 3

/-- The registry of the decoding examples: handle 1 is `/d`, handle 2 is `/e`. -/
def exampleRegistry : WdDirMap :=
  fun k => if k = 1 then some ['/', 'd'] else if k = 2 then some ['/', 'e'] else none

/-! ## Example inputs -/

/-- Two records: a create of `a` under handle 1, then a record with handle 2
and no name. -/
def exampleRecords : List RawRecord :=
  [⟨1, 256, 0, [97, 0, 0, 0, 0, 0, 0, 0, 0, 0, 0, 0, 0, 0, 0, 0]⟩, ⟨2, 256, 7, []⟩]

/-- A rename pair: a moved-from record of `a` under handle 1, then its
continuation with handle 0 and the same cookie. -/
def exampleRename : List RawRecord :=
  [⟨1, 64, 7, [97, 0, 0, 0, 0, 0, 0, 0, 0, 0, 0, 0, 0, 0, 0, 0]⟩, ⟨0, 128, 7, []⟩]

/-- One 16-byte record whose `len` is `2 ^ 32 - 16`: handle 1, mask
`IN_CREATE`, cookie 0. The record size `16 + len` is `2 ^ 32`. -/
def overflowBuffer : List Nat := header 1 256 0 4294967280

/-- Two 16-byte records, the first with `len = 2 ^ 32 - 1` (handle 1, mask
`IN_CREATE`), the second with handle 7, mask `IN_MOVED_FROM`, cookie 3 and no
name. -/
def wrappedBuffer : List Nat := header 1 256 0 4294967295 ++ header 7 64 3 0

/-- One record with handle 5 and no name. -/
def exampleAbsent : RawRecord := ⟨5, 256, 0, []⟩

/-- The name field of the examples: `a` padded with NUL to 16 bytes. -/
def nameA : List Nat := [97, 0, 0, 0, 0, 0, 0, 0, 0, 0, 0, 0, 0, 0, 0, 0]

/-- A buffer of one record, which has a name: a create of `a` under handle
1. -/
def exampleNamed : List RawRecord := [⟨1, 256, 0, nameA⟩]

/-- A rename pair whose continuation has a name: a moved-from record of `a`
under handle 1, then a record with handle 0, the same cookie and the name
`b`. -/
def exampleRenameNamed : List RawRecord :=
  [⟨1, 64, 7, nameA⟩, ⟨0, 128, 7, [98, 0, 0, 0, 0, 0, 0, 0, 0, 0, 0, 0, 0, 0, 0, 0]⟩]

theorem CombineToFullPath_ok (path file : Str) (hp : path ≠ []) :
    ∃ q, CombineToFullPath path file = .ok q ∧ q ≠ [] := by
  unfold CombineToFullPath
  split
  · exact ⟨path, rfl, hp⟩
  · cases hl : path.getLast? with
    | none => exact absurd (List.getLast?_eq_none_iff.mp hl) hp
    | some b =>
      simp only
      split
      · exact ⟨_, rfl, by simp [hp]⟩
      · split
        · exact ⟨_, rfl, by simp [hp]⟩
        · exact ⟨_, rfl, by simp [hp]⟩

/-- C7. For a non-empty path and a non-empty child, `CombineToFullPath` returns the
path without its one trailing separator, one separator, and the child without
its one leading separator; the copies of `inotify.cc` and `main.cc` agree. -/
theorem CombineToFullPath_spec (p c : Str) (hp : p ≠ []) (hc : c ≠ []) :
    CombineToFullPath p c = .ok (dropTrailingSlash p ++ ['/'] ++ dropLeadingSlash c)
    ∧ Main.CombineToFullPath p c = CombineToFullPath p c := by
  refine ⟨?_, rfl⟩
  obtain ⟨q, a, rfl⟩ : ∃ q a, p = q ++ [a] := ⟨p.dropLast, p.getLast hp, (List.dropLast_append_getLast hp).symm⟩
  obtain ⟨b, d, rfl⟩ : ∃ b d, c = b :: d := List.exists_cons_of_ne_nil hc
  by_cases ha : a = '/' <;> by_cases hb : b = '/' <;>
    simp [CombineToFullPath, dropTrailingSlash, dropLeadingSlash, ha, hb, eq_comm]

/-- C7 at the path `/a/` and the child `/b`. -/
theorem CombineToFullPath_spec_witness :
    CombineToFullPath "/a/".toList "/b".toList
      = .ok (dropTrailingSlash "/a/".toList ++ ['/'] ++ dropLeadingSlash "/b".toList)
    ∧ Main.CombineToFullPath "/a/".toList "/b".toList
      = CombineToFullPath "/a/".toList "/b".toList :=
  CombineToFullPath_spec "/a/".toList "/b".toList (by decide) (by decide)

/-! ## The tracker step -/

theorem findIdx_split {α : Type} (p : α → Bool) :
    ∀ (S : List α), (∃ r ∈ S, p r = true) →
      ∃ pre x post, S = pre ++ x :: post ∧ p x = true ∧ (∀ y ∈ pre, p y = false)
        ∧ S.findIdx? p = some pre.length ∧ S.eraseIdx pre.length = pre ++ post
  | [], h => by simp at h
  | a :: S, h => by
    by_cases ha : p a = true
    · exact ⟨[], a, S, rfl, ha, by simp, by simp [List.findIdx?_cons, ha], by simp⟩
    · have h2 : ∃ r ∈ S, p r = true := by
        obtain ⟨r, hr, hpr⟩ := h
        rcases List.mem_cons.mp hr with rfl | hr
        · exact absurd hpr ha
        · exact ⟨r, hr, hpr⟩
      obtain ⟨pre, x, post, hS, hx, hpre, hf, he⟩ := findIdx_split p S h2
      refine ⟨a :: pre, x, post, by simp [hS], hx, ?_, ?_, ?_⟩
      · intro y hy
        rcases List.mem_cons.mp hy with rfl | hy
        · simpa using ha
        · exact hpre y hy
      · simp [List.findIdx?_cons, ha, hf]
      · simp [he]

theorem findIdx_none {α : Type} (p : α → Bool) :
    ∀ (S : List α), (∀ r ∈ S, p r = false) → S.findIdx? p = none
  | [], _ => rfl
  | a :: S, h => by
    have ha : p a = false := h a (List.mem_cons_self _ _)
    have ih := findIdx_none p S (fun r hr => h r (List.mem_cons_of_mem _ hr))
    simp [List.findIdx?_cons, ha, ih]

theorem sameFileDir_iff (e r : InotifyEvent) :
    sameFileDir e r = true ↔ (r.file = e.file ∧ r.dir = e.dir) := by
  unfold sameFileDir
  rw [Bool.and_eq_true, beq_iff_eq, beq_iff_eq]
  constructor
  · rintro ⟨h1, h2⟩; exact ⟨h1.symm, h2.symm⟩
  · rintro ⟨h1, h2⟩; exact ⟨h1.symm, h2.symm⟩

/-- C5. One step of the tracker: a moved-from event with a matching record removes
the first matching record and keeps the others in order; an event without the
moved-from bit and with the create bit is appended; an event with neither bit
leaves the list as it is. Folding create `x`, create `y`, moved-from `x` (all
in `/d`) over the empty list leaves exactly the record of `y`. -/
theorem trackerStep_spec (S : List InotifyEvent) (e : InotifyEvent) :
    (IN_MOVED_FROM &&& e.mask ≠ 0 → (∃ r ∈ S, r.file = e.file ∧ r.dir = e.dir) →
      ∃ pre x post, S = pre ++ x :: post ∧ (x.file = e.file ∧ x.dir = e.dir)
        ∧ (∀ y ∈ pre, ¬ (y.file = e.file ∧ y.dir = e.dir))
        ∧ trackerStep S e = .ok (pre ++ post))
    ∧ (IN_MOVED_FROM &&& e.mask = 0 → IN_CREATE &&& e.mask ≠ 0 → trackerStep S e = .ok (S ++ [e]))
    ∧ (IN_MOVED_FROM &&& e.mask = 0 → IN_CREATE &&& e.mask = 0 → trackerStep S e = .ok S)
    ∧ ∀ (cx cy cz : Nat) (hx hy hz : Int),
        trackerFold []
          [⟨hx, IN_CREATE, cx, ['x'], ['/', 'd']⟩, ⟨hy, IN_CREATE, cy, ['y'], ['/', 'd']⟩,
           ⟨hz, IN_MOVED_FROM, cz, ['x'], ['/', 'd']⟩]
        = .ok [⟨hy, IN_CREATE, cy, ['y'], ['/', 'd']⟩] := by
  refine ⟨?_, ?_, ?_, ?_⟩
  · intro hm hex
    have hex2 : ∃ r ∈ S, sameFileDir e r = true := by
      obtain ⟨r, hr, h⟩ := hex
      exact ⟨r, hr, (sameFileDir_iff e r).mpr h⟩
    obtain ⟨pre, x, post, hS, hx, hpre, hf, he⟩ := findIdx_split (sameFileDir e) S hex2
    refine ⟨pre, x, post, hS, (sameFileDir_iff e x).mp hx, ?_, ?_⟩
    · intro y hy hc
      have := hpre y hy
      rw [(sameFileDir_iff e y).mpr hc] at this
      exact Bool.noConfusion this
    · simp only [trackerStep, hm, ne_eq, not_false_eq_true, if_true, hf, he]
  · intro h1 h2; simp [trackerStep, h1, h2]
  · intro h1 h2; simp [trackerStep, h1, h2]
  · intro cx cy cz hx hy hz
    have h1 : IN_MOVED_FROM &&& IN_CREATE = 0 := by decide
    have h2 : IN_CREATE &&& IN_CREATE ≠ 0 := by decide
    have h3 : IN_MOVED_FROM &&& IN_MOVED_FROM ≠ 0 := by decide
    have h4 : IN_CREATE ≠ 0 := by decide
    have h5 : IN_MOVED_FROM ≠ 0 := by decide
    simp [trackerFold, trackerStep, h1, h2, h3, h4, h5, sameFileDir, List.findIdx?_cons]

/-- C5 at the list of `x` and `y` in `/d` and a moved-from event of `x`. -/
theorem trackerStep_spec_witness :
    ∃ pre x post, ([⟨1, IN_CREATE, 0, ['x'], ['/', 'd']⟩, ⟨1, IN_CREATE, 0, ['y'], ['/', 'd']⟩] : List InotifyEvent)
        = pre ++ x :: post ∧ (x.file = ['x'] ∧ x.dir = ['/', 'd'])
        ∧ (∀ y ∈ pre, ¬ (y.file = ['x'] ∧ y.dir = ['/', 'd']))
        ∧ trackerStep [⟨1, IN_CREATE, 0, ['x'], ['/', 'd']⟩, ⟨1, IN_CREATE, 0, ['y'], ['/', 'd']⟩]
            ⟨1, IN_MOVED_FROM, 7, ['x'], ['/', 'd']⟩ = .ok (pre ++ post) :=
  (trackerStep_spec [⟨1, IN_CREATE, 0, ['x'], ['/', 'd']⟩, ⟨1, IN_CREATE, 0, ['y'], ['/', 'd']⟩]
    ⟨1, IN_MOVED_FROM, 7, ['x'], ['/', 'd']⟩).1 (by decide)
    ⟨⟨1, IN_CREATE, 0, ['x'], ['/', 'd']⟩, by simp, rfl, rfl⟩

/-- C6. A moved-from event that matches no installed record: `find_if` returns
`installed.end()` and the code erases at that iterator, which is undefined; the
event is not dropped and the loop does not reach the next event. -/
theorem trackerStep_unmatched_move (S : List InotifyEvent) (e : InotifyEvent)
    (hm : IN_MOVED_FROM &&& e.mask ≠ 0)
    (hno : ∀ r ∈ S, ¬ (r.file = e.file ∧ r.dir = e.dir)) :
    trackerStep S e = .error Fault.erase_of_end_iterator
    ∧ ∀ rest, trackerFold S (e :: rest) = .error Fault.erase_of_end_iterator := by
  have hf : S.findIdx? (sameFileDir e) = none := by
    apply findIdx_none
    intro r hr
    cases h : sameFileDir e r with
    | false => rfl
    | true => exact absurd ((sameFileDir_iff e r).mp h) (hno r hr)
  have hs : trackerStep S e = .error Fault.erase_of_end_iterator := by
    simp only [trackerStep, hm, ne_eq, not_false_eq_true, if_true, hf]
  exact ⟨hs, fun rest => by rw [trackerFold, hs]⟩

/-- C6 at the empty list and a moved-from event of `x` in `/d`. -/
theorem trackerStep_unmatched_move_witness :
    trackerStep [] ⟨1, IN_MOVED_FROM, 0, ['x'], ['/', 'd']⟩ = .error Fault.erase_of_end_iterator
    ∧ ∀ rest, trackerFold [] (⟨1, IN_MOVED_FROM, 0, ['x'], ['/', 'd']⟩ :: rest)
        = .error Fault.erase_of_end_iterator :=
  trackerStep_unmatched_move [] ⟨1, IN_MOVED_FROM, 0, ['x'], ['/', 'd']⟩ (by decide)
    (fun r hr => absurd hr (List.not_mem_nil r))

/-! ## The decoder on one record -/

theorem header_length (w mk ck n : Nat) : (header w mk ck n).length = 16 := rfl

theorem readU32_header (w mk ck n : Nat) (rest : List Nat)
    (hw : w < 4294967296) (hmk : mk < 4294967296) (hck : ck < 4294967296)
    (hn : n < 4294967296) :
    readU32 (header w mk ck n ++ rest) 0 = w ∧ readU32 (header w mk ck n ++ rest) 4 = mk
    ∧ readU32 (header w mk ck n ++ rest) 8 = ck ∧ readU32 (header w mk ck n ++ rest) 12 = n := by
  simp only [header, le32, readU32, byteAt, List.cons_append, List.nil_append,
    List.getD_cons_succ, List.getD_cons_zero]
  refine ⟨?_, ?_, ?_, ?_⟩ <;> omega

theorem header_set_zero (w mk ck n : Nat) (rest : List Nat) :
    (header w mk ck n ++ rest).set 0 0 = header (w / 256 * 256) mk ck n ++ rest := by
  simp only [header, le32, List.cons_append, List.nil_append, List.set_cons_zero]
  congr 1
  · omega
  · congr 1
    · omega
    · congr 1
      · omega
      · congr 1
        omega

theorem clobber_length (c : Bool) (mem : List Nat) : (clobber c mem).length = mem.length := by
  unfold clobber; split <;> simp

theorem cString_append_set (name rest : List Nat) :
    cString (name ++ rest.set 0 0) = cString name := by
  unfold cString
  congr 1
  induction name with
  | nil =>
    cases rest with
    | nil => simp
    | cons a rest => simp [List.takeWhile_cons]
  | cons a name ih =>
    by_cases ha : a % 256 = 0
    · simp [List.takeWhile_cons, ha]
    · simp only [List.cons_append, List.takeWhile_cons, ne_eq, ha, not_false_eq_true,
        decide_True, if_true, ih]

theorem byteAt_set_zero_succ (mem : List Nat) (i : Nat) :
    byteAt (mem.set 0 0) (i + 1) = byteAt mem (i + 1) := by
  cases mem <;> simp [byteAt]

theorem byteAt_set_of_ne (mem : List Nat) (i j v : Nat) (h : j ≠ i) :
    byteAt (mem.set j v) i = byteAt mem i := by
  unfold byteAt
  rw [List.getD_eq_getElem?_getD, List.getD_eq_getElem?_getD, List.getElem?_set_ne h]

theorem readU32_zero_set (mem : List Nat) (n v : Nat) :
    readU32 (mem.set (HEADER_SIZE + n) v) 0 = readU32 mem 0 := by
  unfold readU32 HEADER_SIZE
  rw [byteAt_set_of_ne _ _ _ _ (by omega), byteAt_set_of_ne _ _ _ _ (by omega),
    byteAt_set_of_ne _ _ _ _ (by omega), byteAt_set_of_ne _ _ _ _ (by omega)]

theorem readU32_clobber (c : Bool) (mem : List Nat) :
    readU32 (clobber c mem) 12 = readU32 mem 12 := by
  unfold clobber
  cases c
  · simp
  · simp only [if_true, readU32, byteAt_set_zero_succ]

theorem clobber_header (c : Bool) (w mk ck n : Nat) (rest : List Nat) :
    clobber c (header w mk ck n ++ rest)
      = header (if c then w / 256 * 256 else w) mk ck n ++ rest := by
  cases c
  · simp [clobber]
  · simp only [clobber, if_true, header_set_zero]

theorem rawWord_lt (wd : Int) : rawWord wd < 4294967296 := by
  unfold rawWord; omega

theorem encode_eq (r : RawRecord) :
    r.encode = header (rawWord r.wd) r.mask r.cookie r.name.length ++ r.name := rfl

theorem toSizeT_natCast (n : Nat) : toSizeT (n : Int) = n := by
  unfold toSizeT
  split <;> omega

theorem parseIteration_record (w mk ck : Nat) (name rest : List Nat)
    (es : List InotifyEvent) (m : WdDirMap)
    (hw : w < 4294967296) (hmk : mk < 4294967296) (hck : ck < 4294967296)
    (hsz : HEADER_SIZE + name.length < 4294967296) :
    parseIteration ⟨16 + name.length + rest.length,
        header w mk ck name.length ++ (name ++ rest), es, m⟩ =
      if name.length > 0 ∧ rest.length = 0 then .error Fault.store_out_of_bounds
      else if toInt32 w = 0 then
        match es.getLast? with
        | none => .error Fault.back_of_empty_vector
        | some back =>
          .ok (⟨rest.length, clobber (decide (name.length > 0)) rest,
                es ++ [⟨back.wd, mk, ck, back.file, back.dir⟩], m⟩, decide (rest.length > 0))
      else
        .ok (⟨rest.length, clobber (decide (name.length > 0)) rest,
              es ++ [⟨toInt32 w, mk, ck, if name.length > 0 then cString name else [],
                      (m.index (toInt32 w)).1⟩], (m.index (toInt32 w)).2⟩,
             decide (rest.length > 0)) := by
  have hn : name.length < 4294967296 := by unfold HEADER_SIZE at hsz; omega
  have hsz' : (HEADER_SIZE + name.length) % 4294967296 = 16 + name.length := by
    unfold HEADER_SIZE at hsz ⊢; omega
  have hmem1 : (if name.length > 0 then
        (header w mk ck name.length ++ (name ++ rest)).set (HEADER_SIZE + name.length) 0
      else header w mk ck name.length ++ (name ++ rest))
      = header w mk ck name.length ++ (name ++ clobber (decide (name.length > 0)) rest) := by
    unfold clobber HEADER_SIZE
    by_cases h0 : name.length > 0
    · simp only [h0, if_true, decide_True]
      rw [List.set_append_right _ _ (by rw [header_length]; omega), header_length,
        List.set_append_right _ _ (by omega)]
      congr 3
      omega
    · simp [h0]
  have hcond : (name.length > 0 ∧
      (header w mk ck name.length ++ (name ++ rest)).length ≤ HEADER_SIZE + name.length)
      ↔ (name.length > 0 ∧ rest.length = 0) := by
    rw [List.length_append, List.length_append, header_length]
    unfold HEADER_SIZE
    omega
  obtain ⟨r0, r4, r8, r12⟩ := readU32_header w mk ck name.length
    (name ++ clobber (decide (name.length > 0)) rest) hw hmk hck hn
  obtain ⟨_, _, _, q12⟩ := readU32_header w mk ck name.length (name ++ rest) hw hmk hck hn
  unfold parseIteration
  simp only [q12, hsz', hmem1, r0, r4, r8, hcond]
  have hlt0 : ¬ ((header w mk ck name.length ++ (name ++ rest)).length < HEADER_SIZE) := by
    rw [List.length_append, header_length]; unfold HEADER_SIZE; omega
  have hlt1 : ¬ (16 + name.length + rest.length < HEADER_SIZE) := by unfold HEADER_SIZE; omega
  have hlt2 : ¬ (16 + name.length + rest.length < 16 + name.length) := by omega
  have hsub : 16 + name.length + rest.length - (16 + name.length) = rest.length := by omega
  have hdrop : (header w mk ck name.length ++ (name ++ clobber (decide (name.length > 0)) rest)).drop
      (16 + name.length) = clobber (decide (name.length > 0)) rest := by
    rw [← List.append_assoc]
    exact List.drop_left' (by simp [header_length])
  have hname : (if name.length > 0 then
      cString ((header w mk ck name.length ++ (name ++ clobber (decide (name.length > 0)) rest)).drop
        HEADER_SIZE) else []) = if name.length > 0 then cString name else [] := by
    by_cases h0 : name.length > 0
    · simp only [h0, if_true, decide_True]
      rw [show HEADER_SIZE = 16 from rfl, List.drop_left' (header_length _ _ _ _)]
      unfold clobber
      simp only [if_true]
      exact cString_append_set name rest
    · simp [h0]
  simp only [hlt0, hlt1, hlt2, if_false, hsub, hdrop, hname]

/-! ## The decoder on a buffer of records -/

theorem encodeAll_append_length_eq_zero (rs : List RawRecord) (tail : List Nat) :
    (encodeAll rs ++ tail).length = 0 ↔ (rs.isEmpty = true ∧ (!tail.isEmpty) = false) := by
  cases rs with
  | nil => cases tail <;> simp [encodeAll]
  | cons x xs =>
    simp only [encodeAll, encode_eq, List.append_assoc, List.length_append, header_length,
      List.isEmpty_cons, Bool.false_eq_true, false_and, iff_false]
    omega

theorem parseLoop_records :
    ∀ (rs : List RawRecord) (c : Bool) (m : WdDirMap) (es : List InotifyEvent)
      (tail : List Nat) (fuel : Nat),
      (∀ r ∈ rs, r.WellFormed) → TruncatedTail tail → rs.length + 1 ≤ fuel →
      output (parseLoop fuel ⟨(encodeAll rs ++ tail).length, clobber c (encodeAll rs ++ tail),
          es, m⟩)
        = some (decodeRecords (!tail.isEmpty) c m es rs)
  | [], c, m, es, tail, fuel, _, ht, hf => by
    obtain ⟨f, rfl⟩ : ∃ f, fuel = f + 1 := ⟨fuel - 1, by simp at hf; omega⟩
    have hit : parseIteration ⟨tail.length, clobber c tail, es, m⟩
        = .ok (⟨tail.length, clobber c tail, es, m⟩, false) := by
      unfold parseIteration
      by_cases h16 : tail.length < HEADER_SIZE
      · simp [h16]
      · have h2 : tail.length < HEADER_SIZE + readU32 tail 12
            ∧ HEADER_SIZE + readU32 tail 12 < 4294967296 := by
          rcases ht with h | ⟨h1, h2⟩
          · exact absurd h h16
          · exact ⟨h2, h1⟩
        simp only [h16, if_false, clobber_length, readU32_clobber, Nat.mod_eq_of_lt h2.2, h2.1,
          if_true]
    simp only [encodeAll, List.nil_append, output, parseLoop, hit, decodeRecords, Option.map_some',
      Except.map]
  | r :: rs, c, m, es, tail, fuel, hwf, ht, hf => by
    obtain ⟨f, rfl⟩ : ∃ f, fuel = f + 1 := ⟨fuel - 1, by simp at hf; omega⟩
    obtain ⟨_, _, hmk, hck, hsz, _⟩ := hwf r (List.mem_cons_self _ _)
    have hw : (if c then rawWord r.wd / 256 * 256 else rawWord r.wd) < 4294967296 := by
      have := rawWord_lt r.wd
      split <;> omega
    have hmem : clobber c (encodeAll (r :: rs) ++ tail)
        = header (if c then rawWord r.wd / 256 * 256 else rawWord r.wd) r.mask r.cookie
            r.name.length ++ (r.name ++ (encodeAll rs ++ tail)) := by
      rw [encodeAll, encode_eq, List.append_assoc, List.append_assoc, clobber_header]
    have hlen : (encodeAll (r :: rs) ++ tail).length
        = 16 + r.name.length + (encodeAll rs ++ tail).length := by
      rw [encodeAll, encode_eq, List.append_assoc, List.append_assoc, List.length_append,
        List.length_append, header_length]
      omega
    have hit := parseIteration_record (if c then rawWord r.wd / 256 * 256 else rawWord r.wd)
      r.mask r.cookie r.name (encodeAll rs ++ tail) es m hw hmk hck hsz
    have ih := fun c' m' es' => parseLoop_records rs c' m' es' tail f
      (fun x hx => hwf x (List.mem_cons_of_mem _ hx)) ht (by simp at hf; omega)
    have hend : ∀ (c1 : Bool) (m1 : WdDirMap) (es1 : List InotifyEvent),
        output (match (Except.ok (⟨(encodeAll rs ++ tail).length, clobber c1 (encodeAll rs ++ tail),
              es1, m1⟩, decide ((encodeAll rs ++ tail).length > 0)) :
              Except Fault (ParseState × Bool)) with
          | .error e => some (.error e)
          | .ok (s1, false) => some (.ok s1)
          | .ok (s1, true) => parseLoop f s1)
          = some (decodeRecords (!tail.isEmpty) c1 m1 es1 rs) := by
      intro c1 m1 es1
      by_cases hpos : (encodeAll rs ++ tail).length > 0
      · simp only [hpos, decide_True]
        exact ih c1 m1 es1
      · have hnil : rs = [] := by
          cases rs with
          | nil => rfl
          | cons x xs =>
            exfalso; apply hpos
            rw [encodeAll, encode_eq, List.append_assoc, List.append_assoc, List.length_append,
              header_length]
            omega
        subst hnil
        simp only [hpos, decide_False, decodeRecords, output, Option.map_some', Except.map]
    rw [hmem, hlen, parseLoop, hit, decodeRecords]
    by_cases hb : r.name.length > 0 ∧ (encodeAll rs ++ tail).length = 0
    · have hb2 : r.name.length > 0 ∧ rs.isEmpty = true ∧ (!tail.isEmpty) = false :=
        ⟨hb.1, (encodeAll_append_length_eq_zero rs tail).mp hb.2⟩
      rw [if_pos hb, if_pos hb2]
      simp only [output, Option.map_some', Except.map]
    · have hb2 : ¬ (r.name.length > 0 ∧ rs.isEmpty = true ∧ (!tail.isEmpty) = false) :=
        fun h => hb ⟨h.1, (encodeAll_append_length_eq_zero rs tail).mpr h.2⟩
      rw [if_neg hb, if_neg hb2]
      by_cases h0 : toInt32 (if c then rawWord r.wd / 256 * 256 else rawWord r.wd) = 0
      · simp only [h0, if_true]
        cases hl : es.getLast? with
        | none => simp only [output, Option.map_some', Except.map]
        | some back => exact hend _ _ _
      · simp only [h0, if_false]
        exact hend _ _ _

theorem toInt32_rawWord (wd : Int) (h1 : -2147483648 ≤ wd) (h2 : wd < 2147483648) :
    toInt32 (rawWord wd) = wd := by
  unfold toInt32 rawWord
  split <;> omega

theorem toInt32_zero_of_wd_zero (c : Bool) :
    toInt32 (if c then rawWord 0 / 256 * 256 else rawWord 0) = 0 := by
  cases c <;> rfl

theorem decodeRecords_props (more : Bool) :
    ∀ (rs : List RawRecord) (c : Bool) (m : WdDirMap) (es : List InotifyEvent),
      (∀ r ∈ rs, r.WellFormed) →
      (es = [] → c = false ∧ ∀ r, rs.head? = some r → r.wd ≠ 0) →
      (more = true ∨ ∀ r, rs.getLast? = some r → r.name = []) →
      ∃ new m1, decodeRecords more c m es rs = .ok (es ++ new, m1) ∧ new.length = rs.length
        ∧ ∀ i r, rs[i]? = some r →
            ∃ C, new[i]? = some C ∧ C.mask = r.mask ∧ C.cookie = r.cookie
              ∧ (r.wd = 0 → ∀ j E, j + 1 = es.length + i → (es ++ new)[j]? = some E →
                  C.file = E.file ∧ C.dir = E.dir)
  | [], c, m, es, _, _, _ => ⟨[], m, by simp [decodeRecords], rfl, by simp⟩
  | r :: rs, c, m, es, hwf, hes, hst => by
    obtain ⟨hr1, hr2, _⟩ := hwf r (List.mem_cons_self _ _)
    have hwf' : ∀ x ∈ rs, x.WellFormed := fun x hx => hwf x (List.mem_cons_of_mem _ hx)
    have hst' : more = true ∨ ∀ x, rs.getLast? = some x → x.name = [] := by
      rcases hst with h | h
      · exact Or.inl h
      · refine Or.inr (fun x hx => h x ?_)
        cases rs with
        | nil => simp at hx
        | cons y ys => rw [List.getLast?_cons_cons]; exact hx
    have hb : ¬ (r.name.length > 0 ∧ rs.isEmpty = true ∧ more = false) := by
      rintro ⟨h1, h2, h3⟩
      rcases hst with h | h
      · rw [h] at h3; cases h3
      · have hnil : rs = [] := List.isEmpty_iff.mp h2
        subst hnil
        have := h r rfl
        rw [this] at h1
        simp at h1
    -- the shape of every successor state
    have key : ∀ (ev : InotifyEvent) (m0 : WdDirMap), ev.mask = r.mask → ev.cookie = r.cookie →
        (r.wd = 0 → ∀ E, es.getLast? = some E → ev.file = E.file ∧ ev.dir = E.dir) →
        ∃ new m1, decodeRecords more (decide (r.name.length > 0)) m0 (es ++ [ev]) rs
            = .ok (es ++ new, m1) ∧ new.length = (r :: rs).length
          ∧ ∀ i x, (r :: rs)[i]? = some x →
              ∃ C, new[i]? = some C ∧ C.mask = x.mask ∧ C.cookie = x.cookie
                ∧ (x.wd = 0 → ∀ j E, j + 1 = es.length + i → (es ++ new)[j]? = some E →
                    C.file = E.file ∧ C.dir = E.dir) := by
      intro ev m0 hmask hcookie hcont
      obtain ⟨new, m1, hd, hlen, hall⟩ := decodeRecords_props more rs
        (decide (r.name.length > 0)) m0 (es ++ [ev]) hwf' (fun h => absurd h (by simp)) hst'
      refine ⟨ev :: new, m1, by simp [hd], by simp [hlen], ?_⟩
      intro i x hx
      cases i with
      | zero =>
        simp only [List.getElem?_cons_zero, Option.some.injEq] at hx
        subst hx
        refine ⟨ev, by simp, hmask, hcookie, ?_⟩
        intro hz j E hj hE
        apply hcont hz E
        have hjl : j < es.length := by omega
        rw [List.getElem?_append_left hjl] at hE
        rw [List.getLast?_eq_getElem?, ← hE]
        congr 1
        omega
      | succ i =>
        simp only [List.getElem?_cons_succ] at hx
        obtain ⟨C, hC, hm', hc', hcont'⟩ := hall i x hx
        refine ⟨C, by simpa using hC, hm', hc', ?_⟩
        intro hz j E hj hE
        apply hcont' hz j E
        · simp; omega
        · simpa using hE
    rw [decodeRecords, if_neg hb]
    by_cases h0 : toInt32 (if c then rawWord r.wd / 256 * 256 else rawWord r.wd) = 0
    · simp only [h0, if_true]
      cases hl : es.getLast? with
      | none =>
        exfalso
        have hnil : es = [] := List.getLast?_eq_none_iff.mp hl
        obtain ⟨hc, hh⟩ := hes hnil
        subst hc
        simp only [Bool.false_eq_true, if_false, toInt32_rawWord r.wd hr1 hr2] at h0
        exact hh r rfl h0
      | some back =>
        exact key ⟨back.wd, r.mask, r.cookie, back.file, back.dir⟩ m rfl rfl
          (fun _ E hE => by
            rw [hl] at hE
            cases hE
            exact ⟨rfl, rfl⟩)
    · simp only [h0, if_false]
      refine key _ _ rfl rfl (fun hz => ?_)
      exfalso
      apply h0
      rw [hz]
      exact toInt32_zero_of_wd_zero c

theorem decodeRecords_last_name :
    ∀ (rs : List RawRecord) (c : Bool) (m : WdDirMap) (es : List InotifyEvent),
      (∀ r ∈ rs, r.WellFormed) →
      (es = [] → c = false ∧ ∀ r, rs.head? = some r → r.wd ≠ 0) →
      (∃ r, rs.getLast? = some r ∧ r.name ≠ []) →
      decodeRecords false c m es rs = .error Fault.store_out_of_bounds
  | [], _, _, _, _, _, hl => by
    obtain ⟨r, hr, _⟩ := hl
    simp at hr
  | [r], c, m, es, _, _, hl => by
    obtain ⟨x, hx, hne⟩ := hl
    simp only [List.getLast?_singleton, Option.some.injEq] at hx
    subst hx
    have hpos : r.name.length > 0 := List.length_pos.mpr hne
    rw [decodeRecords, if_pos ⟨hpos, rfl, rfl⟩]
  | r :: y :: ys, c, m, es, hwf, hes, hl => by
    obtain ⟨hr1, hr2, _⟩ := hwf r (List.mem_cons_self _ _)
    have hwf' : ∀ x ∈ y :: ys, x.WellFormed := fun x hx => hwf x (List.mem_cons_of_mem _ hx)
    have hl' : ∃ x, (y :: ys).getLast? = some x ∧ x.name ≠ [] := by
      obtain ⟨x, hx, hne⟩ := hl
      rw [List.getLast?_cons_cons] at hx
      exact ⟨x, hx, hne⟩
    have hb : ¬ (r.name.length > 0 ∧ (y :: ys).isEmpty = true ∧ false = false) := by
      rintro ⟨_, h2, _⟩
      simp at h2
    have ih := fun c' m' (ev : InotifyEvent) => decodeRecords_last_name (y :: ys) c' m'
      (es ++ [ev]) hwf' (fun h => absurd h (by simp)) hl'
    rw [decodeRecords, if_neg hb]
    by_cases h0 : toInt32 (if c then rawWord r.wd / 256 * 256 else rawWord r.wd) = 0
    · simp only [h0, if_true]
      cases hg : es.getLast? with
      | none =>
        exfalso
        have hnil : es = [] := List.getLast?_eq_none_iff.mp hg
        obtain ⟨hc, hh⟩ := hes hnil
        subst hc
        simp only [Bool.false_eq_true, if_false, toInt32_rawWord r.wd hr1 hr2] at h0
        exact hh r rfl h0
      | some back => exact ih _ _ _
    · simp only [h0, if_false]
      exact ih _ _ _

theorem ParseInotifyEvents_records (fuel : Nat) (m : WdDirMap) (rs : List RawRecord)
    (tail : List Nat) (es : List InotifyEvent)
    (hwf : ∀ r ∈ rs, r.WellFormed) (ht : TruncatedTail tail) (hf : rs.length + 1 ≤ fuel) :
    output (ParseInotifyEvents fuel m (encodeAll rs ++ tail) (encodeAll rs ++ tail).length es)
      = some (decodeRecords (!tail.isEmpty) false m es rs) := by
  unfold ParseInotifyEvents
  rw [toSizeT_natCast]
  exact parseLoop_records rs false m es tail fuel hwf ht hf

theorem truncatedTail_nil : TruncatedTail [] := Or.inl (by decide)

theorem output_eq_error (r : Option (Except Fault ParseState)) (f : Fault)
    (h : output r = some (.error f)) : r = some (.error f) := by
  unfold output at h
  cases r with
  | none => simp at h
  | some x =>
    cases x with
    | error e => simpa [Except.map] using h
    | ok s => simp [Except.map] at h

/-! ## Claims on the decoder and the poller -/

/-- C1. A buffer of well-formed records with non-zero handles, allocated with
exactly its size as `ReadEvents` does. If its last record has a name, the
decoder stores the terminator one byte past the allocation, which is undefined,
and no vector of N events is produced. If its last record has no name (or the
buffer is empty) the decoder returns exactly N events and the i-th carries the
mask and the cookie of the i-th record. -/
theorem ParseInotifyEvents_named_last_record (fuel : Nat) (m : WdDirMap)
    (rs : List RawRecord) (hwf : ∀ r ∈ rs, r.WellFormed) (hnz : ∀ r ∈ rs, r.wd ≠ 0)
    (hf : rs.length + 1 ≤ fuel) :
    ((∃ r, rs.getLast? = some r ∧ r.name ≠ []) →
      ParseInotifyEvents fuel m (encodeAll rs) (encodeAll rs).length []
        = some (.error Fault.store_out_of_bounds)
      ∧ ∀ nready : Int, nready > 0 →
          ReadEvents fuel m nready 0 (encodeAll rs).length (encodeAll rs)
            = some (.error Fault.store_out_of_bounds))
    ∧ ((∀ r, rs.getLast? = some r → r.name = []) →
      ∃ es m1,
        output (ParseInotifyEvents fuel m (encodeAll rs) (encodeAll rs).length [])
          = some (.ok (es, m1))
        ∧ es.length = rs.length
        ∧ ∀ (i : Nat) (r : RawRecord), rs[i]? = some r →
            ∃ e : InotifyEvent, es[i]? = some e ∧ e.mask = r.mask ∧ e.cookie = r.cookie) := by
  have h := ParseInotifyEvents_records fuel m rs [] [] hwf truncatedTail_nil hf
  rw [List.append_nil] at h
  have hhead : ([] : List InotifyEvent) = [] → false = false ∧ ∀ r, rs.head? = some r → r.wd ≠ 0 :=
    fun _ => ⟨rfl, fun r hr => hnz r (List.mem_of_mem_head? hr)⟩
  constructor
  · intro hlast
    have hd := decodeRecords_last_name rs false m [] hwf hhead hlast
    have hp : ParseInotifyEvents fuel m (encodeAll rs) (encodeAll rs).length []
        = some (.error Fault.store_out_of_bounds) := by
      apply output_eq_error
      rw [h]
      exact congrArg some hd
    refine ⟨hp, fun nready hn => ?_⟩
    unfold ReadEvents
    simp only [hn, if_true, ne_eq, not_true_eq_false, if_false, hp]
  · intro hlast
    obtain ⟨new, m1, hd, hlen, hall⟩ := decodeRecords_props false rs false m [] hwf hhead
      (Or.inr hlast)
    refine ⟨new, m1, ?_, hlen, ?_⟩
    · rw [h]
      exact congrArg some (by simpa using hd)
    · intro i r hr
      obtain ⟨C, hC, h1, h2, _⟩ := hall i r hr
      exact ⟨C, hC, h1, h2⟩

/-- C1 at the buffer of one record that has a name, and at a buffer of two
records whose last one has none. -/
theorem ParseInotifyEvents_named_last_record_witness :
    (ParseInotifyEvents 2 exampleRegistry (encodeAll exampleNamed) (encodeAll exampleNamed).length []
        = some (.error Fault.store_out_of_bounds)
      ∧ ∀ nready : Int, nready > 0 →
          ReadEvents 2 exampleRegistry nready 0 (encodeAll exampleNamed).length
              (encodeAll exampleNamed)
            = some (.error Fault.store_out_of_bounds))
    ∧ ∃ es m1,
        output (ParseInotifyEvents 3 exampleRegistry (encodeAll exampleRecords)
          (encodeAll exampleRecords).length []) = some (.ok (es, m1))
        ∧ es.length = exampleRecords.length
        ∧ ∀ (i : Nat) (r : RawRecord), exampleRecords[i]? = some r →
            ∃ e : InotifyEvent, es[i]? = some e ∧ e.mask = r.mask ∧ e.cookie = r.cookie :=
  ⟨(ParseInotifyEvents_named_last_record 2 exampleRegistry exampleNamed (by decide) (by decide)
      (by decide)).1 ⟨⟨1, 256, 0, nameA⟩, rfl, by decide⟩,
   (ParseInotifyEvents_named_last_record 3 exampleRegistry exampleRecords (by decide) (by decide)
      (by decide)).2 (fun r hr => by cases hr; rfl)⟩

/-- C2. A buffer of well-formed records that does not begin with a
continuation, allocated with exactly its size. If it ends in a record that has
a name, as when the continuation is the last record and has a name, the
decoder stores the terminator one byte past the allocation before it emits
that record, which is undefined. If bytes follow the last record or it has no
name, the event emitted for a record with handle 0 has the file and the
directory of the event emitted just before it and the mask and cookie of the
continuation record. -/
theorem ParseInotifyEvents_named_continuation (fuel : Nat) (m : WdDirMap)
    (rs : List RawRecord) (tail : List Nat) (hwf : ∀ r ∈ rs, r.WellFormed)
    (hhead : ∀ r, rs.head? = some r → r.wd ≠ 0) (ht : TruncatedTail tail)
    (hf : rs.length + 1 ≤ fuel) :
    ((∃ r, rs.getLast? = some r ∧ r.name ≠ []) →
      ParseInotifyEvents fuel m (encodeAll rs) (encodeAll rs).length []
        = some (.error Fault.store_out_of_bounds))
    ∧ ((tail ≠ [] ∨ ∀ r, rs.getLast? = some r → r.name = []) →
      ∃ es m1,
        output (ParseInotifyEvents fuel m (encodeAll rs ++ tail) (encodeAll rs ++ tail).length [])
          = some (.ok (es, m1))
        ∧ ∀ (i : Nat) (r : RawRecord) (E : InotifyEvent), rs[i + 1]? = some r → r.wd = 0 →
            es[i]? = some E →
            ∃ C : InotifyEvent, es[i + 1]? = some C ∧ C.file = E.file ∧ C.dir = E.dir
              ∧ C.mask = r.mask ∧ C.cookie = r.cookie) := by
  have hes : ([] : List InotifyEvent) = [] → false = false ∧ ∀ r, rs.head? = some r → r.wd ≠ 0 :=
    fun _ => ⟨rfl, hhead⟩
  constructor
  · intro hlast
    have h := ParseInotifyEvents_records fuel m rs [] [] hwf truncatedTail_nil hf
    rw [List.append_nil] at h
    apply output_eq_error
    rw [h]
    exact congrArg some (decodeRecords_last_name rs false m [] hwf hes hlast)
  · intro hst
    have h := ParseInotifyEvents_records fuel m rs tail [] hwf ht hf
    have hst' : (!tail.isEmpty) = true ∨ ∀ r, rs.getLast? = some r → r.name = [] := by
      rcases hst with h1 | h1
      · left
        cases tail with
        | nil => exact absurd rfl h1
        | cons a t => rfl
      · exact Or.inr h1
    obtain ⟨new, m1, hd, _, hall⟩ := decodeRecords_props (!tail.isEmpty) rs false m [] hwf hes hst'
    refine ⟨new, m1, ?_, ?_⟩
    · rw [h]
      exact congrArg some (by simpa using hd)
    · intro i r E hr hz hE
      obtain ⟨C, hC, h1, h2, hcont⟩ := hall (i + 1) r hr
      obtain ⟨h3, h4⟩ := hcont hz i E (by simp) (by simpa using hE)
      exact ⟨C, hC, h3, h4, h1, h2⟩

/-- C2 at a rename pair whose continuation has a name, and at one whose
continuation has none. -/
theorem ParseInotifyEvents_named_continuation_witness :
    ParseInotifyEvents 3 exampleRegistry (encodeAll exampleRenameNamed)
        (encodeAll exampleRenameNamed).length []
      = some (.error Fault.store_out_of_bounds)
    ∧ ∃ es m1,
        output (ParseInotifyEvents 3 exampleRegistry (encodeAll exampleRename ++ [])
          (encodeAll exampleRename ++ []).length []) = some (.ok (es, m1))
        ∧ ∀ (i : Nat) (r : RawRecord) (E : InotifyEvent), exampleRename[i + 1]? = some r →
            r.wd = 0 → es[i]? = some E →
            ∃ C : InotifyEvent, es[i + 1]? = some C ∧ C.file = E.file ∧ C.dir = E.dir
              ∧ C.mask = r.mask ∧ C.cookie = r.cookie :=
  ⟨(ParseInotifyEvents_named_continuation 3 exampleRegistry exampleRenameNamed [] (by decide)
      (by decide) (by decide) (by decide)).1
      ⟨⟨0, 128, 7, [98, 0, 0, 0, 0, 0, 0, 0, 0, 0, 0, 0, 0, 0, 0, 0]⟩, rfl, by decide⟩,
   (ParseInotifyEvents_named_continuation 3 exampleRegistry exampleRename [] (by decide)
      (by decide) (by decide) (by decide)).2 (Or.inr (fun r hr => by cases hr; rfl))⟩

/-- C3. A buffer whose first complete record has handle 0, decoded with no
event emitted before, ends in an undefined operation: the call of `back()` on
the empty vector, or before it the terminator store when the record has a name
and no byte of the buffer follows it. No `MalformedEventStream` error exists
in the code. -/
theorem ParseInotifyEvents_leading_continuation (fuel : Nat) (m : WdDirMap) (buf : List Nat)
    (h1 : HEADER_SIZE ≤ buf.length)
    (h2 : (HEADER_SIZE + readU32 buf 12) % 4294967296 ≤ buf.length)
    (h3 : toInt32 (readU32 buf 0) = 0) :
    ParseInotifyEvents (fuel + 1) m buf buf.length []
      = some (.error (if readU32 buf 12 > 0 ∧ buf.length ≤ HEADER_SIZE + readU32 buf 12
          then Fault.store_out_of_bounds else Fault.back_of_empty_vector))
    ∧ ∀ nready : Int, nready > 0 →
        ReadEvents (fuel + 1) m nready 0 buf.length buf
          = some (.error (if readU32 buf 12 > 0 ∧ buf.length ≤ HEADER_SIZE + readU32 buf 12
              then Fault.store_out_of_bounds else Fault.back_of_empty_vector)) := by
  have hp : ParseInotifyEvents (fuel + 1) m buf buf.length []
      = some (.error (if readU32 buf 12 > 0 ∧ buf.length ≤ HEADER_SIZE + readU32 buf 12
          then Fault.store_out_of_bounds else Fault.back_of_empty_vector)) := by
    have hw : toInt32 (readU32 (if readU32 buf 12 > 0 then buf.set (HEADER_SIZE + readU32 buf 12) 0
        else buf) 0) = 0 := by
      split
      · rw [readU32_zero_set]; exact h3
      · exact h3
    unfold ParseInotifyEvents
    rw [toSizeT_natCast, parseLoop, parseIteration]
    simp only [Nat.not_lt.mpr h1, Nat.not_lt.mpr h2, if_false]
    by_cases hb : readU32 buf 12 > 0 ∧ buf.length ≤ HEADER_SIZE + readU32 buf 12
    · rw [if_pos hb, if_pos hb]
    · rw [if_neg hb, if_neg hb]
      simp only [hw, if_true, List.getLast?_nil]
  refine ⟨hp, fun nready hn => ?_⟩
  unfold ReadEvents
  simp only [hn, if_true, ne_eq, not_true_eq_false, if_false, hp]

/-- C3 at the buffer of one record with handle 0 and no name. -/
theorem ParseInotifyEvents_leading_continuation_witness :
    ParseInotifyEvents 1 WdDirMap.empty (header 0 256 0 0) (header 0 256 0 0).length []
      = some (.error Fault.back_of_empty_vector)
    ∧ ∀ nready : Int, nready > 0 →
        ReadEvents 1 WdDirMap.empty nready 0 (header 0 256 0 0).length (header 0 256 0 0)
          = some (.error Fault.back_of_empty_vector) :=
  ParseInotifyEvents_leading_continuation 0 WdDirMap.empty (header 0 256 0 0)
    (by decide) (by decide) (by decide)

/-- C9. When `select` fails (returns -1) `ReadEvents` throws nothing: it returns
the empty vector, the very result it gives when `select` reports that no data
is ready (returns 0). -/
theorem ReadEvents_select_failure (fuel : Nat) (m : WdDirMap) (ioctl_result bytes_to_read : Int)
    (read_buffer : List Nat) :
    (ReadEvents fuel m (-1) ioctl_result bytes_to_read read_buffer).map (Except.map Prod.fst)
      = some (.ok [])
    ∧ ReadEvents fuel m (-1) ioctl_result bytes_to_read read_buffer
      = ReadEvents fuel m 0 ioctl_result bytes_to_read read_buffer := by
  constructor <;> simp [ReadEvents, Except.map]

/-- C10. A record with handle 2 and no name that directly follows a record
with handle 1 and the name `a` is decoded as a continuation: its event has
handle 1, file `a` and directory `/d`, not handle 2, the empty file and `/e`. -/
theorem ParseInotifyEvents_handle_after_name :
    output (ParseInotifyEvents 3 exampleRegistry
        (encodeAll [⟨1, 256, 0, [97, 0, 0, 0, 0, 0, 0, 0, 0, 0, 0, 0, 0, 0, 0, 0]⟩, ⟨2, 256, 0, []⟩])
        48 [])
      = some (.ok ([⟨1, 256, 0, ['a'], ['/', 'd']⟩, ⟨1, 256, 0, ['a'], ['/', 'd']⟩],
          exampleRegistry)) := by
  rfl

/-! ## The recursive walk -/

theorem WatchFile_ok (fs : FileSystem) (self : Inotify) (path : Str) (events : Nat)
    (hadd : ∀ p, fs.inotify_add_watch p events ≠ none) :
    ∃ fd, WatchFile fs self path events
      = .ok (fd, { self with watches := self.watches ++ [(path, fd)] }) := by
  unfold WatchFile
  cases h : fs.inotify_add_watch path events with
  | none => exact absurd h (hadd path)
  | some fd => exact ⟨fd, rfl⟩

theorem WatchRecursivelyFrom_paths (fs : FileSystem) (events : Nat)
    (hadd : ∀ p, fs.inotify_add_watch p events ≠ none) :
    ∀ (max_depth : Nat) (path : Str) (self : Inotify), path ≠ [] →
      ∃ self1, WatchRecursivelyFrom fs events max_depth path self = .ok self1
        ∧ watchedPaths self1 = watchedPaths self ++ walkPaths fs max_depth path
  | 0, path, self, _ => by
    obtain ⟨fd, hfd⟩ := WatchFile_ok fs self path events hadd
    refine ⟨_, by rw [WatchRecursivelyFrom, hfd], ?_⟩
    simp [watchedPaths, walkPaths]
  | max_depth + 1, path, self, hp => by
    obtain ⟨fd, hfd⟩ := WatchFile_ok fs self path events hadd
    rw [WatchRecursivelyFrom, hfd, walkPaths]
    cases hopen : fs.opendir path with
    | none => exact ⟨_, rfl, by simp [watchedPaths]⟩
    | some entries =>
      simp only
      have hfold : ∀ (es : List Str) (self3 : Inotify),
          ∃ self1, es.foldlM
            (fun (self3 : Inotify) (d_name : Str) =>
              match CombineToFullPath path d_name with
              | .error f => .error f
              | .ok entry_path =>
                if IsDirectory fs entry_path then
                  if OneOrTwoDotsDir d_name then .ok self3
                  else WatchRecursivelyFrom fs events max_depth entry_path self3
                else .ok self3) self3 = Except.ok self1
            ∧ watchedPaths self1 = watchedPaths self3 ++ es.flatMap (fun d_name =>
                match CombineToFullPath path d_name with
                | .error _ => []
                | .ok entry_path =>
                  if IsDirectory fs entry_path && !OneOrTwoDotsDir d_name then
                    walkPaths fs max_depth entry_path
                  else []) := by
        intro es
        induction es with
        | nil => intro self3; exact ⟨self3, rfl, by simp⟩
        | cons n es ih =>
          intro self3
          obtain ⟨q, hq, hqne⟩ := CombineToFullPath_ok path n hp
          simp only [List.foldlM_cons, List.flatMap_cons, hq]
          by_cases hdir : IsDirectory fs q = true
          · by_cases hdots : OneOrTwoDotsDir n = true
            · obtain ⟨s1, h1, h2⟩ := ih self3
              refine ⟨s1, ?_, ?_⟩
              · simp only [hdir, hdots, if_true]
                exact h1
              · simp [hdir, hdots, h2]
            · obtain ⟨s2, h3, h4⟩ := WatchRecursivelyFrom_paths fs events hadd max_depth q self3 hqne
              obtain ⟨s1, h1, h2⟩ := ih s2
              refine ⟨s1, ?_, ?_⟩
              · simp only [hdir, hdots, if_true, if_false, h3]
                exact h1
              · simp [hdir, hdots, h2, h4]
          · obtain ⟨s1, h1, h2⟩ := ih self3
            refine ⟨s1, ?_, ?_⟩
            · simp only [hdir, if_false]
              exact h1
            · simp [hdir, h2]
      obtain ⟨s1, h1, h2⟩ := hfold entries
        { wd_dir_map := self.wd_dir_map.assign fd path, watches := self.watches ++ [(path, fd)] }
      refine ⟨s1, h1, ?_⟩
      rw [h2]
      simp only [watchedPaths, List.map_append, List.map_cons, List.map_nil, List.append_assoc,
        List.singleton_append]

theorem IsDirectory_iff (fs : FileSystem) (p : Str) :
    IsDirectory fs p = true ↔ fs.lstat p = some FileKind.directory := by
  unfold IsDirectory
  cases h : fs.lstat p with
  | none => simp
  | some k => cases k <;> simp

theorem OneOrTwoDotsDir_false_iff (n : Str) :
    OneOrTwoDotsDir n = false ↔ n ≠ ['.'] ∧ n ≠ ['.', '.'] := by
  unfold OneOrTwoDotsDir
  simp only [Bool.or_eq_false_iff, decide_eq_false_iff_not, ne_eq]
  constructor
  · rintro ⟨h1, h2⟩; exact ⟨fun h => h1 h.symm, fun h => h2 h.symm⟩
  · rintro ⟨h1, h2⟩; exact ⟨fun h => h1 h.symm, fun h => h2 h.symm⟩

theorem mem_walkPaths (fs : FileSystem) :
    ∀ (d : Nat) (p q : Str), q ∈ walkPaths fs d p ↔ ∃ k, k ≤ d ∧ Below fs p k q
  | 0, p, q => by
    simp only [walkPaths, List.mem_singleton]
    constructor
    · rintro rfl; exact ⟨0, le_refl _, Below.here _⟩
    · rintro ⟨k, hk, hb⟩
      cases hb with
      | here => rfl
      | step => omega
  | d + 1, p, q => by
    rw [walkPaths, List.mem_cons]
    constructor
    · rintro (rfl | hmem)
      · exact ⟨0, Nat.zero_le _, Below.here _⟩
      · cases hopen : fs.opendir p with
        | none => rw [hopen] at hmem; simp at hmem
        | some entries =>
          rw [hopen] at hmem
          simp only [List.mem_flatMap] at hmem
          obtain ⟨n, hn, hq⟩ := hmem
          cases hc : CombineToFullPath p n with
          | error f => rw [hc] at hq; simp at hq
          | ok c =>
            rw [hc] at hq
            simp only at hq
            by_cases hcond : (IsDirectory fs c && !OneOrTwoDotsDir n) = true
            · rw [if_pos hcond] at hq
              obtain ⟨k, hk, hb⟩ := (mem_walkPaths fs d c q).mp hq
              simp only [Bool.and_eq_true, Bool.not_eq_true'] at hcond
              obtain ⟨h1, h2⟩ := (OneOrTwoDotsDir_false_iff n).mp hcond.2
              exact ⟨k + 1, by omega,
                Below.step hopen hn h1 h2 hc ((IsDirectory_iff fs c).mp hcond.1) hb⟩
            · rw [if_neg hcond] at hq; simp at hq
    · rintro ⟨k, hk, hb⟩
      cases hb with
      | here => exact Or.inl rfl
      | @step _ c _ k entries n hopen hn h1 h2 hc hdir hb =>
        right
        rw [hopen]
        simp only [List.mem_flatMap]
        refine ⟨n, hn, ?_⟩
        rw [hc]
        have hcond : (IsDirectory fs c && !OneOrTwoDotsDir n) = true := by
          simp only [Bool.and_eq_true, Bool.not_eq_true']
          exact ⟨(IsDirectory_iff fs c).mpr hdir, (OneOrTwoDotsDir_false_iff n).mpr ⟨h1, h2⟩⟩
        simp only [hcond, if_true]
        exact (mem_walkPaths fs d c q).mpr ⟨k, by omega, hb⟩

theorem exampleFs_add_watch (mask : Nat) (p : Str) :
    exampleFs.inotify_add_watch p mask ≠ none := by
  simp only [exampleFs]
  split
  · simp
  · split <;> simp

theorem exampleFs_below_b (k : Nat) (q : Str) (h : Below exampleFs "/r/b".toList k q) : k ≤ 0 := by
  cases h with
  | here => exact le_refl _
  | @step _ c _ k entries n hopen hn h1 h2 hc hdir hb =>
    exfalso
    have he : entries = [".".toList, "..".toList, "c".toList] := by
      have : exampleFs.opendir "/r/b".toList = some [".".toList, "..".toList, "c".toList] := by rfl
      rw [this] at hopen
      exact (Option.some.inj hopen).symm
    subst he
    simp only [List.mem_cons, List.mem_singleton, List.not_mem_nil, or_false] at hn
    rcases hn with rfl | rfl | rfl
    · exact h1 rfl
    · exact h2 rfl
    · have : CombineToFullPath "/r/b".toList "c".toList = .ok "/r/b/c".toList := by rfl
      rw [this] at hc
      cases hc
      have : exampleFs.lstat "/r/b/c".toList = some FileKind.regular := by rfl
      rw [this] at hdir
      cases hdir

theorem exampleFs_depth (k : Nat) (q : Str) (h : Below exampleFs "/r".toList k q) :
    k ≤ INT32_MAX := by
  cases h with
  | here => exact Nat.zero_le _
  | @step _ c _ k entries n hopen hn h1 h2 hc hdir hb =>
    have he : entries = [".".toList, "..".toList, "a".toList, "b".toList] := by
      have : exampleFs.opendir "/r".toList
          = some [".".toList, "..".toList, "a".toList, "b".toList] := by rfl
      rw [this] at hopen
      exact (Option.some.inj hopen).symm
    subst he
    simp only [List.mem_cons, List.mem_singleton, List.not_mem_nil, or_false] at hn
    rcases hn with rfl | rfl | rfl | rfl
    · exact absurd rfl h1
    · exact absurd rfl h2
    · exfalso
      have : CombineToFullPath "/r".toList "a".toList = .ok "/r/a".toList := by rfl
      rw [this] at hc
      cases hc
      have : exampleFs.lstat "/r/a".toList = some FileKind.regular := by rfl
      rw [this] at hdir
      cases hdir
    · have : CombineToFullPath "/r".toList "b".toList = .ok "/r/b".toList := by rfl
      rw [this] at hc
      cases hc
      have := exampleFs_below_b k q hb
      unfold INT32_MAX
      omega

/-- C8. When every watch install succeeds, `WatchRecursively(root, mask, d)`
installs watches on exactly `root` and the real directories, other than `.`
and `..`, that lie at depth at most `d` below `root` through real directories
(at every depth when `d < 0`, given that no directory lies deeper than
`INT32_MAX`); with `d = 0` on `root` alone; and on the tree `/r/{a, b/{c}}`
with unbounded depth on exactly `/r` and `/r/b`. -/
theorem WatchRecursively_watches (fs : FileSystem) (self : Inotify) (root : Str) (mask : Nat)
    (d : Int) (hroot : root ≠ []) (hadd : ∀ p, fs.inotify_add_watch p mask ≠ none)
    (hdeep : d < 0 → ∀ k q, Below fs root k q → k ≤ INT32_MAX) :
    (∃ self1 installed, WatchRecursively fs self (some root) mask d = .ok self1
      ∧ watchedPaths self1 = watchedPaths self ++ installed
      ∧ (∀ q, q ∈ installed ↔ ∃ k : Nat, (d < 0 ∨ (k : Int) ≤ d) ∧ Below fs root k q)
      ∧ (d = 0 → installed = [root]))
    ∧ ∀ mask1 : Nat,
        (WatchRecursively exampleFs Inotify.init (some "/r".toList) mask1 (-1)).map watchedPaths
          = .ok ["/r".toList, "/r/b".toList] := by
  refine ⟨?_, fun mask1 => rfl⟩
  obtain ⟨self1, h1, h2⟩ := WatchRecursivelyFrom_paths fs mask hadd
    (if d < 0 then INT32_MAX else d.toNat) root self hroot
  refine ⟨self1, _, h1, h2, ?_, ?_⟩
  · intro q
    rw [mem_walkPaths]
    by_cases hd : d < 0
    · simp only [hd, if_true, true_or, true_and]
      constructor
      · rintro ⟨k, _, hb⟩; exact ⟨k, hb⟩
      · rintro ⟨k, hb⟩; exact ⟨k, hdeep hd k q hb, hb⟩
    · simp only [hd, if_false, false_or]
      constructor
      · rintro ⟨k, hk, hb⟩; exact ⟨k, by omega, hb⟩
      · rintro ⟨k, hk, hb⟩; exact ⟨k, by omega, hb⟩
  · rintro rfl
    rfl

/-- C8 at the tree `/r/{a, b/{c}}` with unbounded depth. -/
theorem WatchRecursively_watches_witness :
    ∃ self1 installed,
      WatchRecursively exampleFs Inotify.init (some "/r".toList) 256 (-1) = .ok self1
      ∧ watchedPaths self1 = watchedPaths Inotify.init ++ installed
      ∧ (∀ q, q ∈ installed ↔
          ∃ k : Nat, ((-1 : Int) < 0 ∨ (k : Int) ≤ -1) ∧ Below exampleFs "/r".toList k q)
      ∧ ((-1 : Int) = 0 → installed = ["/r".toList]) :=
  (WatchRecursively_watches exampleFs Inotify.init "/r".toList 256 (-1) (by decide)
    (exampleFs_add_watch 256) (fun _ => exampleFs_depth)).1

/-! ## Claims on record sizes, the registry and the depth limit -/

theorem byteAt_append_replicate (pre : List Nat) (n i : Nat) :
    byteAt (pre ++ List.replicate n 0) i = byteAt pre i := by
  unfold byteAt
  congr 1
  rw [List.getD_eq_getElem?_getD, List.getD_eq_getElem?_getD]
  by_cases h : i < pre.length
  · rw [List.getElem?_append_left h]
  · rw [List.getElem?_append_right (Nat.le_of_not_lt h), List.getElem?_eq_none (Nat.le_of_not_lt h)]
    by_cases h2 : i - pre.length < n
    · rw [List.getElem?_replicate_of_lt h2]; rfl
    · rw [List.getElem?_eq_none (by simpa using h2)]

theorem readU32_append_replicate (pre : List Nat) (n off : Nat) :
    readU32 (pre ++ List.replicate n 0) off = readU32 pre off := by
  unfold readU32
  simp only [byteAt_append_replicate]

theorem replicate_set_zero : ∀ (n j : Nat), (List.replicate n 0).set j 0 = List.replicate n 0
  | 0, _ => rfl
  | n + 1, 0 => rfl
  | n + 1, j + 1 => by
    rw [List.replicate_succ, List.set_cons_succ, replicate_set_zero n j]

theorem append_replicate_set (pre : List Nat) (n i : Nat) (h : pre.length ≤ i) :
    (pre ++ List.replicate n 0).set i 0 = pre ++ List.replicate n 0 := by
  rw [List.set_append_right _ _ h, replicate_set_zero]

theorem cString_append_replicate (xs : List Nat) (n : Nat) :
    cString (xs ++ List.replicate n 0) = cString xs := by
  unfold cString
  congr 1
  induction xs with
  | nil =>
    cases n with
    | zero => rfl
    | succ k => simp [List.replicate_succ, List.takeWhile_cons]
  | cons a xs ih =>
    by_cases ha : a % 256 = 0
    · simp [List.takeWhile_cons, ha]
    · simp only [List.cons_append, List.takeWhile_cons, ne_eq, ha, not_false_eq_true,
        decide_True, if_true, ih]

/-- One pass of the decoder over a buffer `pre` that is followed in its
allocation by `n` zero bytes, when the terminator store, if any, lands among
those bytes. -/
theorem parseIteration_mapped (u n : Nat) (pre : List Nat) (es : List InotifyEvent)
    (m : WdDirMap) (hu1 : HEADER_SIZE ≤ u)
    (hu2 : (HEADER_SIZE + readU32 pre 12) % 4294967296 ≤ u)
    (hp1 : HEADER_SIZE ≤ pre.length)
    (hp2 : (HEADER_SIZE + readU32 pre 12) % 4294967296 ≤ pre.length)
    (hst : readU32 pre 12 > 0 →
      pre.length ≤ HEADER_SIZE + readU32 pre 12 ∧ HEADER_SIZE + readU32 pre 12 < pre.length + n) :
    parseIteration ⟨u, pre ++ List.replicate n 0, es, m⟩ =
      if toInt32 (readU32 pre 0) = 0 then
        match es.getLast? with
        | none => .error Fault.back_of_empty_vector
        | some back =>
          .ok (⟨u - (HEADER_SIZE + readU32 pre 12) % 4294967296,
                pre.drop ((HEADER_SIZE + readU32 pre 12) % 4294967296) ++ List.replicate n 0,
                es ++ [⟨back.wd, readU32 pre 4, readU32 pre 8, back.file, back.dir⟩], m⟩,
               decide (u - (HEADER_SIZE + readU32 pre 12) % 4294967296 > 0))
      else
        .ok (⟨u - (HEADER_SIZE + readU32 pre 12) % 4294967296,
              pre.drop ((HEADER_SIZE + readU32 pre 12) % 4294967296) ++ List.replicate n 0,
              es ++ [⟨toInt32 (readU32 pre 0), readU32 pre 4, readU32 pre 8,
                      if readU32 pre 12 > 0 then cString (pre.drop HEADER_SIZE) else [],
                      (m.index (toInt32 (readU32 pre 0))).1⟩],
              (m.index (toInt32 (readU32 pre 0))).2⟩,
             decide (u - (HEADER_SIZE + readU32 pre 12) % 4294967296 > 0)) := by
  have hmem1 : (if readU32 pre 12 > 0 then
        (pre ++ List.replicate n 0).set (HEADER_SIZE + readU32 pre 12) 0
      else pre ++ List.replicate n 0) = pre ++ List.replicate n 0 := by
    split
    · rename_i h
      exact append_replicate_set pre n _ (hst h).1
    · rfl
  have hb : ¬ (readU32 pre 12 > 0 ∧
      (pre ++ List.replicate n 0).length ≤ HEADER_SIZE + readU32 pre 12) := by
    rintro ⟨h1, h2⟩
    rw [List.length_append, List.length_replicate] at h2
    have := (hst h1).2
    omega
  have hdrop : ∀ k, k ≤ pre.length →
      (pre ++ List.replicate n 0).drop k = pre.drop k ++ List.replicate n 0 :=
    fun k hk => List.drop_append_of_le_length hk
  have hld : ¬ ((pre ++ List.replicate n 0).length < HEADER_SIZE) := by
    rw [List.length_append]; omega
  unfold parseIteration
  simp only [readU32_append_replicate, Nat.not_lt.mpr hu1, Nat.not_lt.mpr hu2, hld, if_false]
  rw [if_neg hb]
  simp only [hmem1, readU32_append_replicate, hdrop _ hp1, hdrop _ hp2, cString_append_replicate]

theorem parseLoop_overflowBuffer_mapped :
    ∀ (fuel : Nat) (es : List InotifyEvent) (m : WdDirMap),
      parseLoop fuel ⟨16, overflowBuffer ++ List.replicate 4294967296 0, es, m⟩ = none
  | 0, _, _ => rfl
  | fuel + 1, es, m => by
    have hE : (HEADER_SIZE + readU32 overflowBuffer 12) % 4294967296 = 0 := by decide
    have hwd : toInt32 (readU32 overflowBuffer 0) = 1 := by decide
    have hit := parseIteration_mapped 16 4294967296 overflowBuffer es m (by decide) (by decide)
      (by decide) (by decide) (fun _ => ⟨by decide, by decide⟩)
    rw [hE, hwd] at hit
    simp only [one_ne_zero, if_false, Nat.sub_zero, List.drop_zero, gt_iff_lt, Nat.lt_irrefl,
      Nat.zero_lt_succ, decide_True, Nat.reduceLT] at hit
    rw [parseLoop, hit]
    exact parseLoop_overflowBuffer_mapped fuel _ _

theorem parseLoop_wrappedBuffer_mapped :
    (parseLoop 3 ⟨32, wrappedBuffer ++ List.replicate 4294967296 0, [], WdDirMap.empty⟩).map
        (Except.map (fun s => s.events))
      = some (.ok [⟨1, 256, 0, [Char.ofNat 7], []⟩, ⟨2047, 16384, 768, [], []⟩]) := by
  have i1 := parseIteration_mapped 32 4294967296 wrappedBuffer [] WdDirMap.empty (by decide)
    (by decide) (by decide) (by decide) (fun _ => ⟨by decide, by decide⟩)
  have hE1 : (HEADER_SIZE + readU32 wrappedBuffer 12) % 4294967296 = 15 := by decide
  have hw1 : toInt32 (readU32 wrappedBuffer 0) = 1 := by decide
  rw [hE1, hw1] at i1
  simp only [one_ne_zero, if_false] at i1
  have i2 := fun es m => parseIteration_mapped 17 4294967296 (wrappedBuffer.drop 15) es m
    (by decide) (by decide) (by decide) (by decide)
    (fun h => absurd h (by decide))
  have hE2 : (HEADER_SIZE + readU32 (wrappedBuffer.drop 15) 12) % 4294967296 = 16 := by decide
  have hw2 : toInt32 (readU32 (wrappedBuffer.drop 15) 0) = 2047 := by decide
  simp only [hE2, hw2] at i2
  have i3 : ∀ (mem : List Nat) (es : List InotifyEvent) (m : WdDirMap),
      parseIteration ⟨1, mem, es, m⟩ = .ok (⟨1, mem, es, m⟩, false) := by
    intro mem es m
    unfold parseIteration
    simp [HEADER_SIZE]
  have h4 : readU32 wrappedBuffer 4 = 256 := by decide
  have h8 : readU32 wrappedBuffer 8 = 0 := by decide
  have h12 : readU32 wrappedBuffer 12 > 0 := by decide
  have hn : cString (wrappedBuffer.drop HEADER_SIZE) = [Char.ofNat 7] := by decide
  have g4 : readU32 (wrappedBuffer.drop 15) 4 = 16384 := by decide
  have g8 : readU32 (wrappedBuffer.drop 15) 8 = 768 := by decide
  have g12 : ¬ readU32 (wrappedBuffer.drop 15) 12 > 0 := by decide
  rw [parseLoop, i1]
  simp only [show decide (32 - 15 > 0) = true from rfl, show 32 - 15 = 17 from rfl]
  rw [parseLoop, i2]
  simp only [show (2047 : Int) ≠ 0 by decide, if_false, show decide (17 - 16 > 0) = true from rfl,
    show 17 - 16 = 1 from rfl]
  rw [parseLoop, i3]
  simp only [Option.map_some', Except.map, h4, h8, h12, hn, g4, g8, g12, if_true, if_false,
    List.nil_append, List.cons_append]
  rfl

/-- C11. A record whose `len` is `2 ^ 32 - 16` is not rejected: the record size
is computed modulo `2 ^ 32` as 0 and the size check passes. In a buffer of
exactly 16 bytes the terminator is then stored `2 ^ 32` bytes from the record,
outside the allocation, which is undefined. When the allocation goes on for
`2 ^ 32` zero bytes the store lands inside it, an event is emitted,
`unread_bytes` stays 16 and the loop has not ended after any number of passes.
With `len = 2 ^ 32 - 1` in such an allocation the size wraps to 15, the call
returns without error, and the next record is read one byte early with the
wrong fields. -/
theorem ParseInotifyEvents_size_overflow (fuel : Nat) (m : WdDirMap)
    (es : List InotifyEvent) :
    ParseInotifyEvents (fuel + 1) m overflowBuffer 16 es
      = some (.error Fault.store_out_of_bounds)
    ∧ ParseInotifyEvents fuel m (overflowBuffer ++ List.replicate 4294967296 0) 16 es = none
    ∧ (ParseInotifyEvents 3 WdDirMap.empty (wrappedBuffer ++ List.replicate 4294967296 0) 32 []).map
          (Except.map (fun s => s.events))
        = some (.ok [⟨1, 256, 0, [Char.ofNat 7], []⟩, ⟨2047, 16384, 768, [], []⟩]) := by
  refine ⟨?_, ?_, ?_⟩
  · have hlen : readU32 overflowBuffer 12 = 4294967280 := by decide
    have hb : (4294967280 : Nat) > 0 ∧ overflowBuffer.length ≤ HEADER_SIZE + 4294967280 := by
      decide
    unfold ParseInotifyEvents
    rw [show toSizeT 16 = 16 from rfl, parseLoop, parseIteration]
    simp only [hlen, show ¬ (16 < HEADER_SIZE) by decide,
      show ¬ (overflowBuffer.length < HEADER_SIZE) by decide,
      show ¬ (16 < (HEADER_SIZE + 4294967280) % 4294967296) by decide, if_false]
    rw [if_pos hb]
  · unfold ParseInotifyEvents
    rw [show toSizeT 16 = 16 from rfl]
    exact parseLoop_overflowBuffer_mapped fuel es m
  · unfold ParseInotifyEvents
    rw [show toSizeT 32 = 32 from rfl]
    exact parseLoop_wrappedBuffer_mapped

/-- C12. Decoding a record whose non-zero handle is not a key of the map adds
that key, with the empty string as value: the map afterwards differs from the
map before. The record has no name or is followed by bytes of the buffer, so
that its terminator store is inside the buffer. -/
theorem ParseInotifyEvents_inserts_absent_handle (fuel : Nat) (m : WdDirMap) (r : RawRecord)
    (tail : List Nat) (hwf : r.WellFormed) (hnz : r.wd ≠ 0) (habs : m r.wd = none)
    (ht : TruncatedTail tail) (hst : r.name = [] ∨ tail ≠ []) (hf : 2 ≤ fuel) :
    ∃ es m1,
      output (ParseInotifyEvents fuel m (encodeAll [r] ++ tail) (encodeAll [r] ++ tail).length [])
        = some (.ok (es, m1))
      ∧ m1 r.wd = some [] ∧ m1 ≠ m := by
  have h := ParseInotifyEvents_records fuel m [r] tail []
    (fun x hx => by rw [List.mem_singleton.mp hx]; exact hwf) ht hf
  obtain ⟨h1, h2, _⟩ := hwf
  have hw : toInt32 (rawWord r.wd) = r.wd := toInt32_rawWord r.wd h1 h2
  have hm1 : (m.index r.wd).2 r.wd = some [] := by
    simp [WdDirMap.index, habs]
  have hb : ¬ (r.name.length > 0 ∧ ([] : List RawRecord).isEmpty = true
      ∧ (!tail.isEmpty) = false) := by
    rintro ⟨h3, _, h4⟩
    rcases hst with h5 | h5
    · rw [h5] at h3; simp at h3
    · cases tail with
      | nil => exact h5 rfl
      | cons a t => simp at h4
  refine ⟨[⟨r.wd, r.mask, r.cookie, if r.name.length > 0 then cString r.name else [],
    (m.index r.wd).1⟩], (m.index r.wd).2, ?_, hm1, ?_⟩
  · rw [h, decodeRecords, if_neg hb]
    simp only [decodeRecords, Bool.false_eq_true, if_false, hw, hnz, List.nil_append]
  · intro heq
    rw [heq, habs] at hm1
    cases hm1

/-- C12 at the empty map and a record with handle 5. -/
theorem ParseInotifyEvents_inserts_absent_handle_witness :
    ∃ es m1,
      output (ParseInotifyEvents 2 WdDirMap.empty (encodeAll [exampleAbsent] ++ [])
        (encodeAll [exampleAbsent] ++ []).length []) = some (.ok (es, m1))
      ∧ m1 exampleAbsent.wd = some [] ∧ m1 ≠ WdDirMap.empty :=
  ParseInotifyEvents_inserts_absent_handle 2 WdDirMap.empty exampleAbsent [] (by decide)
    (by decide) rfl (by decide) (Or.inl rfl) (by decide)

/-- C13. On the tree `/r/{a, b/{c}}`, where every install and every open
succeeds: with `d = 0` the watch on `/r` (descriptor 1) is installed and the
map has no key 1; with `d = 1` the watches on `/r` and `/r/b` (descriptors 1
and 2) are installed, key 1 maps to `/r` and the map has no key 2. -/
theorem WatchRecursively_depth_limit_unregistered (mask : Nat) :
    (WatchRecursively exampleFs Inotify.init (some "/r".toList) mask 0).map
        (fun s => (s.watches, s.wd_dir_map 1))
      = .ok ([("/r".toList, 1)], none)
    ∧ (WatchRecursively exampleFs Inotify.init (some "/r".toList) mask 1).map
        (fun s => (s.watches, s.wd_dir_map 1, s.wd_dir_map 2))
      = .ok ([("/r".toList, 1), ("/r/b".toList, 2)], some "/r".toList, none) :=
  ⟨rfl, rfl⟩

end MiXpkg
